import Mathlib

/-!
Verification development for the manga-translator pipeline.

Shallow embedding of the core algorithms of the repository:
* the box grouper `OCRProcessor._sort_boxes` (src/utils/ocr_processor.py),
* the zero-detection return shape of `OCRProcessor.perform_ocr`,
* the sentence assembler and the translation-result mapper (src/app.py),
* the text-fit typesetter `Typesetter._fit_text` / `Typesetter._wrap_text`
  and the region selection of `Typesetter.overlay_text` (src/utils/typesetter.py).

Coordinates are modelled as integers (the source uses floats on integral
pixel data), Python strings as Lean `String` with structurally recursive
helpers over `String.data` so that all definitions evaluate by `decide`,
Python lists as Lean lists, a Python `dict` as an association list, and the
boolean visited array of the grouper as a `Finset` of indices.  Python's
`list.sort(key=...)` is a stable sort and is modelled by the stable
`List.insertionSort`; the traversal stack is modelled with cons as push,
which can only affect orders that the source re-sorts afterwards.
-/

/-! ### Geometry: points, polygons, bounding rects (src/utils/ocr_processor.py lines 100-121) -/

structure Pt where
  x : Int
  y : Int
deriving DecidableEq

structure Quad where
  p1 : Pt
  p2 : Pt
  p3 : Pt
  p4 : Pt
deriving DecidableEq

structure Rect where
  min_x : Int
  max_x : Int
  min_y : Int
  max_y : Int
deriving DecidableEq

def min4 (a b c d : Int) : Int := min (min (min a b) c) d

def max4 (a b c d : Int) : Int := max (max (max a b) c) d

/-- The axis-aligned bounding rect of a detection polygon:
`min(xs), max(xs), min(ys), max(ys)` as in `_sort_boxes` step 1. -/
def Quad.rect (b : Quad) : Rect where
  min_x := min4 b.p1.x b.p2.x b.p3.x b.p4.x
  max_x := max4 b.p1.x b.p2.x b.p3.x b.p4.x
  min_y := min4 b.p1.y b.p2.y b.p3.y b.p4.y
  max_y := max4 b.p1.y b.p2.y b.p3.y b.p4.y

/-- One OCR detection: `(box, text)` as zipped in `perform_ocr`. -/
abbrev Item := Quad × String

def itemRect (it : Item) : Rect := it.1.rect

def rectMinY (it : Item) : Int := (itemRect it).min_y

/-! ### Box grouper (src/utils/ocr_processor.py `_sort_boxes`, lines 84-188) -/

/-- `get_gap` of `_sort_boxes`: gap between the closest edges, 0 on overlap. -/
def getGap (start1 end1 start2 end2 : Int) : Int :=
  max 0 (max start1 start2 - min end1 end2)

def xGap (r1 r2 : Rect) : Int := getGap r1.min_x r1.max_x r2.min_x r2.max_x

def yGap (r1 r2 : Rect) : Int := getGap r1.min_y r1.max_y r2.min_y r2.max_y

/-- The threshold test `x_gap <= x_threshold and y_gap <= y_threshold`. -/
def connectsB (xt yt : Int) (r1 r2 : Rect) : Bool :=
  decide (xGap r1 r2 ≤ xt) && decide (yGap r1 r2 ≤ yt)

/-- Adjacency of two distinct detections, as built by the double loop over
pairs `(i, j)` with `i < j` (symmetric, irreflexive). -/
def edgeB (items : List Item) (xt yt : Int) (i j : Fin items.length) : Bool :=
  decide (i ≠ j) && connectsB xt yt (itemRect (items.get i)) (itemRect (items.get j))

/-- The adjacency list `adj[i]`; the double loop appends neighbors of `i`
in increasing index order, which is exactly this filter of `finRange`. -/
def nbrs (items : List Item) (xt yt : Int) (i : Fin items.length) : List (Fin items.length) :=
  (List.finRange items.length).filter (fun j => edgeB items xt yt i j)

/-- The `for neighbor in adj[curr]` body: unvisited neighbors are marked
visited and pushed on the stack. -/
def pushNbrs {n : Nat} :
    List (Fin n) → List (Fin n) → Finset (Fin n) → List (Fin n) × Finset (Fin n)
  | [], stack, vis => (stack, vis)
  | j :: rest, stack, vis =>
    if j ∈ vis then pushNbrs rest stack vis
    else pushNbrs rest (j :: stack) (insert j vis)

/-- The `while stack:` traversal of `_sort_boxes` step 3, collecting one
connected component.  The fuel argument only bounds the iteration count;
`2 * n + 1` steps always suffice (each iteration pops one entry and every
push marks a previously unvisited index). -/
def dfsLoop {n : Nat} (adj : Fin n → List (Fin n)) :
    Nat → List (Fin n) → Finset (Fin n) → List (Fin n) × Finset (Fin n)
  | 0, _, vis => ([], vis)
  | _ + 1, [], vis => ([], vis)
  | fuel + 1, curr :: rest, vis =>
    let sv := pushNbrs (adj curr) rest vis
    let cv := dfsLoop adj fuel sv.1 sv.2
    (curr :: cv.1, cv.2)

/-- The outer `for i in range(n): if not visited[i]:` loop of step 3. -/
def groupLoop {n : Nat} (adj : Fin n → List (Fin n)) :
    List (Fin n) → Finset (Fin n) → List (List (Fin n))
  | [], _ => []
  | i :: rest, vis =>
    if i ∈ vis then groupLoop adj rest vis
    else
      let cv := dfsLoop adj (2 * n + 1) [i] (insert i vis)
      cv.1 :: groupLoop adj rest cv.2

/-- The connected components of the proximity graph, in discovery order,
as index lists into `items`. -/
def components (items : List Item) (xt yt : Int) : List (List (Fin items.length)) :=
  groupLoop (nbrs items xt yt) (List.finRange items.length) ∅

/-- `get_group_y` of `_sort_boxes` step 4: the minimum `min_y` over the
group members (the source folds `min` starting from infinity; groups are
never empty, so folding from the first member is the same). -/
def getGroupY : List Item → Int
  | [] => 0
  | it :: rest => rest.foldl (fun m x => min m (rectMinY x)) (rectMinY it)

/-- The sort key inside a component: `rects[idx]['min_y']`. -/
def memberLE (items : List Item) (a b : Fin items.length) : Prop :=
  rectMinY (items.get a) ≤ rectMinY (items.get b)

instance (items : List Item) : DecidableRel (memberLE items) :=
  fun a b => inferInstanceAs (Decidable (_ ≤ _))

/-- The sort key between groups: `get_group_y`. -/
def groupLE (g1 g2 : List Item) : Prop := getGroupY g1 ≤ getGroupY g2

instance : DecidableRel groupLE :=
  fun g1 g2 => inferInstanceAs (Decidable (_ ≤ _))

/-- `_sort_boxes`: components sorted internally by member `min_y`, mapped
back to items, and the groups sorted by `get_group_y`.  Python's
`list.sort` is a stable sort, modelled by the stable `insertionSort`. -/
def sortBoxes (items : List Item) (xt yt : Int) : List (List Item) :=
  ((components items xt yt).map
    (fun c => (c.insertionSort (memberLE items)).map items.get)).insertionSort groupLE

/-- Index-level connectivity: a chain of pairwise-connected detections. -/
def ReachIdx (items : List Item) (xt yt : Int) :
    Fin items.length → Fin items.length → Prop :=
  Relation.ReflTransGen (fun a b => edgeB items xt yt a b = true)

/-- Value-level proximity step among the detections present in `S`. -/
def edgeVP (S : Finset Item) (xt yt : Int) (a b : Item) : Prop :=
  a ∈ S ∧ b ∈ S ∧ connectsB xt yt (itemRect a) (itemRect b) = true

/-- Value-level connectivity among the detections present in `S`. -/
def ReachV (S : Finset Item) (xt yt : Int) : Item → Item → Prop :=
  Relation.ReflTransGen (edgeVP S xt yt)

/-! ### `perform_ocr` result shape (src/utils/ocr_processor.py lines 52-82)

`perform_ocr` returns a single empty list (`return []`, line 56) when the
engine reports no result, and otherwise a pair
`(grouped_boxes, grouped_texts)`.  The input is modelled as `none` for the
no-result branch and `some detections` for the normal branch. -/

def performOcrResult (ocr : Option (List Item)) (xt yt : Int) :
    List String ⊕ (List (List Quad) × List (List String)) :=
  match ocr with
  | none => Sum.inl []
  | some dets =>
    let sortedGroups := sortBoxes dets xt yt
    Sum.inr (sortedGroups.map (fun g => g.map Prod.fst),
      sortedGroups.map (fun g => g.map Prod.snd))

/-! ### Sentence assembler (src/app.py lines 326-352) -/

/-- `word.endswith("-")`: the last character is a hyphen. -/
def endsWithHyphen (s : String) : Bool := s.data.getLast? == some '-'

/-- `word[:-1]`. -/
def dropLastChar (s : String) : String := String.mk s.data.dropLast

def strConcat (a b : String) : String := String.mk (a.data ++ b.data)

/-- `' '.join(ws)`. -/
def joinSpace : List String → String
  | [] => ""
  | [w] => w
  | w :: rest => String.mk (w.data ++ ' ' :: (joinSpace rest).data)

/-- The `while i < len(group)` loop of the payload builder: a fragment
ending in a hyphen is merged with the immediately following fragment
(hyphen dropped, no space) and both are consumed; otherwise the fragment
is kept as-is. -/
def processedWords : List String → List String
  | [] => []
  | [w] => [w]
  | w :: next :: rest =>
    if endsWithHyphen w then strConcat (dropLastChar w) next :: processedWords rest
    else w :: processedWords (next :: rest)

/-- Python `str.capitalize()`: first character uppercased, the rest
lowercased (ASCII case mapping). -/
def pyCapitalize (s : String) : String :=
  match s.data with
  | [] => ""
  | c :: cs => String.mk (c.toUpper :: cs.map Char.toLower)

/-- `" ".join(processed_words).capitalize()` (src/app.py line 349). -/
def assembleSentence (group : List String) : String :=
  pyCapitalize (joinSpace (processedWords group))

/-! ### Translation result mapper (src/app.py lines 390-426) -/

/-- Python `data.get(k, dflt)` on a dict modelled as an association list. -/
def dictGet (d : List (String × String)) (k dflt : String) : String :=
  match d.lookup k with
  | some v => v
  | none => dflt

/-- The dict branch (src/app.py lines 401-404):
`for sent in all_sentences: translated_lines.append(data.get(sent, sent))`. -/
def mapDictResult (sentences : List String) (d : List (String × String)) : List String :=
  sentences.foldl (fun acc sent => acc ++ [dictGet d sent sent]) []

/-- Python `str.strip()` whitespace (the characters relevant here). -/
def isPySpace (c : Char) : Bool :=
  c = ' ' || c = '\t' || c = '\n' || c = '\r' || c = '\x0b' || c = '\x0c'

def pyStrip (s : String) : String :=
  String.mk (((s.data.dropWhile isPySpace).reverse.dropWhile isPySpace).reverse)

def splitCharGo (c : Char) : List Char → List Char → List String
  | [], acc => [String.mk acc.reverse]
  | d :: rest, acc =>
    if d = c then String.mk acc.reverse :: splitCharGo c rest []
    else splitCharGo c rest (d :: acc)

/-- Python `s.split(c)` for a single-character separator (keeps empty
pieces, exactly like the source's `split('\n')` and `split(' ')`). -/
def splitChar (c : Char) (s : String) : List String := splitCharGo c s.data []

/-- The text branch (src/app.py line 414):
`[line.strip() for line in translation_result.strip().split('\n') if line.strip()]`. -/
def textLines (r : String) : List String :=
  ((splitChar '\n' (pyStrip r)).map pyStrip).filter (fun l => l != "")

/-- Text mode outcome: the positional list together with the mismatch flag
`len(translated_lines) != len(all_sentences)` (src/app.py line 420). -/
def textModeResult (sentences : List String) (r : String) : List String × Bool :=
  (textLines r, decide ((textLines r).length ≠ sentences.length))

/-- JSON-array branch outcome (src/app.py lines 405-407 and 420): the list
is used positionally as-is, with the same mismatch flag. -/
def listModeResult (sentences data : List String) : List String × Bool :=
  (data, decide (data.length ≠ sentences.length))

/-! ### Text-fit typesetter (src/utils/typesetter.py lines 160-241)

The PIL measurement functions are parameters: `tl s k` models
`draw.textlength(s, font=truetype(k))` and `bb s k` models the
`(width, height)` of `draw.textbbox((0,0), s, font=truetype(k))`. -/

def pushChar (s : String) (c : Char) : String := String.mk (s.data ++ [c])

/-- The character-splitting fallback of `_wrap_text` for a word wider than
the region: returns the completed lines and the residual `sub_line`. -/
def splitWord (tl : String → Int) (maxW : Int) : String → List Char → List String × String
  | sub, [] => ([], sub)
  | sub, c :: cs =>
    if tl (pushChar sub c) ≤ maxW then splitWord tl maxW (pushChar sub c) cs
    else
      let lf := splitWord tl maxW (String.mk [c]) cs
      (sub :: lf.1, lf.2)

/-- The `for word in words` loop of `_wrap_text` with its trailing
`if current_line: lines.append(...)`. -/
def wrapLoop (tl : String → Int) (maxW : Int) :
    List String → List String → List String → List String
  | [], lines, current => if current.isEmpty then lines else lines ++ [joinSpace current]
  | w :: ws, lines, current =>
    if tl (joinSpace (current ++ [w])) ≤ maxW then wrapLoop tl maxW ws lines (current ++ [w])
    else if !current.isEmpty then wrapLoop tl maxW ws (lines ++ [joinSpace current]) [w]
    else
      let lf := splitWord tl maxW "" w.data
      wrapLoop tl maxW ws (lines ++ lf.1) [lf.2]

/-- `_wrap_text(text, font, max_width, draw)` at a fixed font size. -/
def wrapText (tl : String → Int) (text : String) (maxW : Int) : List String :=
  wrapLoop tl maxW (splitChar ' ' text) [] []

/-- The fit predicate of `_fit_text`: total wrapped height within
`max_height` and every wrapped line's width within `max_width`. -/
def fitsAt (tl : String → Nat → Int) (bb : String → Nat → Int × Int) (text : String)
    (maxW maxH : Int) (size : Nat) : Bool :=
  let lines := wrapText (fun t => tl t size) text maxW
  decide ((lines.map (fun l => (bb l size).2)).sum ≤ maxH) &&
    lines.all (fun l => decide ((bb l size).1 ≤ maxW))

/-- The `while low <= high` binary search of `_fit_text`.  The fuel only
bounds the iteration count; `high + 1 - low` iterations always suffice. -/
def fitLoop (pred : Nat → Bool) (layout : Nat → List String) :
    Nat → Nat → Nat → Nat × List String → Nat × List String
  | 0, _, _, best => best
  | fuel + 1, low, high, best =>
    if low ≤ high then
      let mid := (low + high) / 2
      if pred mid then fitLoop pred layout fuel (mid + 1) high (mid, layout mid)
      else fitLoop pred layout fuel low (mid - 1) best
    else best

/-- `_fit_text`: binary search over sizes 10..100, starting from
`best_font = truetype(min_size)` and `best_lines = [text]`.  The result is
the chosen size together with the chosen line layout. -/
def fitText (tl : String → Nat → Int) (bb : String → Nat → Int × Int) (text : String)
    (maxW maxH : Int) : Nat × List String :=
  fitLoop (fitsAt tl bb text maxW maxH)
    (fun s => wrapText (fun t => tl t s) text maxW) 91 10 100 (10, [text])

/-! ### Overlay target regions (src/utils/typesetter.py lines 107-126)

`Typesetter.overlay_text` iterates over every `(box, text)` pair inside
every group, skips empty texts, computes the bounding rect of the single
member box, and skips it when its width or height is non-positive.  This
captures the target regions it typesets into. -/

def overlayTextRegions (grouped_boxes : List (List Quad))
    (grouped_texts : List (List String)) : List Rect :=
  ((grouped_boxes.zip grouped_texts).map (fun bt =>
    (bt.1.zip bt.2).filterMap (fun boxText =>
      if boxText.2 = "" then none
      else
        let r := boxText.1.rect
        if r.max_x - r.min_x ≤ 0 ∨ r.max_y - r.min_y ≤ 0 then none
        else some r))).flatten

/-- Modelled from the spec: the Region Consolidator of spec section 4.4 —
the single bounding rectangle spanning every point of every member polygon
of a group, reduced on all four edges by a padding value.  This operation
is missing from src: `Typesetter.overlay_text` (src/utils/typesetter.py
line 81) accepts no padding and consolidates nothing, although its caller
(src/app.py lines 510-518) passes `padding`, `font_name` and `font_size`
keyword arguments to it. -/
def consolidatedRegion (polys : List Quad) (padding : Int) : Rect :=
  match polys with
  | [] => { min_x := 0, max_x := 0, min_y := 0, max_y := 0 }
  | p :: ps =>
    let r : Rect := ps.foldl
      (fun acc q =>
        { min_x := min acc.min_x q.rect.min_x
          max_x := max acc.max_x q.rect.max_x
          min_y := min acc.min_y q.rect.min_y
          max_y := max acc.max_y q.rect.max_y })
      p.rect
    { min_x := r.min_x + padding, max_x := r.max_x - padding
      min_y := r.min_y + padding, max_y := r.max_y - padding }

/-! ### Concrete test data -/

def polyA : Quad := ⟨⟨0, 0⟩, ⟨10, 0⟩, ⟨10, 10⟩, ⟨0, 10⟩⟩

def polyB : Quad := ⟨⟨30, 30⟩, ⟨40, 30⟩, ⟨40, 40⟩, ⟨30, 40⟩⟩

def polyC : Quad := ⟨⟨31, 30⟩, ⟨41, 30⟩, ⟨41, 40⟩, ⟨31, 40⟩⟩

def polyD : Quad := ⟨⟨0, 20⟩, ⟨10, 20⟩, ⟨10, 30⟩, ⟨0, 30⟩⟩

def polyZeroW : Quad := ⟨⟨5, 0⟩, ⟨5, 0⟩, ⟨5, 10⟩, ⟨5, 10⟩⟩

def detA : Item := (polyA, "A")

def detB : Item := (polyB, "B")

def detC : Item := (polyC, "C")

/-- A measurement pair under which every layout is one line of width 0 and
height 0: the fit predicate holds at every size, hence is monotone. -/
def tlMono : String → Nat → Int := fun _ _ => 0

def bbMono : String → Nat → Int × Int := fun _ _ => (0, 0)

/-- A proportional measurement pair: width `size * len`, height `size`. -/
def tlWide : String → Nat → Int := fun t s => (s : Int) * t.length

def bbWide : String → Nat → Int × Int := fun t s => ((s : Int) * t.length, (s : Int))

/-- A non-monotone height measurement: the block fits at sizes up to 20 and
at size 80, but at no size in between. -/
def bbOdd : String → Nat → Int × Int :=
  fun _ s => (0, if s ≤ 20 ∨ s = 80 then 0 else 1000)

/-! ## Helper lemmas -/

theorem foldl_append_singleton {α β : Type} (f : α → β) :
    ∀ (l : List α) (acc : List β), l.foldl (fun a x => a ++ [f x]) acc = acc ++ l.map f
  | [], acc => by simp
  | x :: l, acc => by
    simp only [List.foldl_cons, List.map_cons, foldl_append_singleton f l, List.append_assoc,
      List.singleton_append]

theorem mapDictResult_eq_map (sentences : List String) (d : List (String × String)) :
    mapDictResult sentences d = sentences.map (fun s => dictGet d s s) := by
  unfold mapDictResult
  simpa using foldl_append_singleton (fun s => dictGet d s s) sentences []

/-! ## Claims C4, C5, C9 -/

/-- C4: for every sentence list and every parsed key-to-value mapping, the
mapper returns a list of exactly the input length, whose entry at every
position is the dict lookup of the original sentence with the original
sentence itself as the fallback for a missing key; in particular
`["Hello", "World"]` with `{"Hello": "สวัสดี"}` yields `["สวัสดี", "World"]`. -/
theorem claimC4 :
    (∀ (sentences : List String) (d : List (String × String)),
      (mapDictResult sentences d).length = sentences.length) ∧
    (∀ (sentences : List String) (d : List (String × String)) (i : Nat),
      (mapDictResult sentences d).get? i = (sentences.get? i).map (fun s => dictGet d s s)) ∧
    mapDictResult ["Hello", "World"] [("Hello", "สวัสดี")] = ["สวัสดี", "World"] := by
  refine ⟨?_, ?_, by decide⟩
  · intro s d
    rw [mapDictResult_eq_map]
    exact List.length_map s _
  · intro s d i
    rw [mapDictResult_eq_map, List.get?_map]

/-- C5: in text mode the translation result is split into stripped
non-blank lines, the mismatch flag is exactly `length ≠ N`, and the
M-element list is returned unchanged alongside the flag (same for the
positional JSON-array mode); in particular 3 sentences against a 2-line
response give mismatch `true` and a 2-element list. -/
theorem claimC5 :
    (∀ (sentences : List String) (r : String),
      (textModeResult sentences r).1 = textLines r ∧
      (textModeResult sentences r).2 = decide ((textLines r).length ≠ sentences.length)) ∧
    (∀ (sentences data : List String),
      (listModeResult sentences data).1 = data ∧
      (listModeResult sentences data).2 = decide (data.length ≠ sentences.length)) ∧
    textModeResult ["s1", "s2", "s3"] "one\ntwo" = (["one", "two"], true) ∧
    (textModeResult ["s1", "s2", "s3"] "  one \n\n two ").1.length = 2 := by
  exact ⟨fun s r => ⟨rfl, rfl⟩, fun s d => ⟨rfl, rfl⟩, by decide, by decide⟩

/-- C9: the sentence assembler merges a fragment ending in a hyphen with
the immediately following fragment (hyphen dropped, no inserted space,
both consumed), keeps other fragments as-is, joins with single spaces and
applies capitalize semantics; in particular `["pre-", "fix", "word"]`
yields `"Prefix word"`. -/
theorem claimC9 :
    assembleSentence ["pre-", "fix", "word"] = "Prefix word" ∧
    (∀ (w next : String) (rest : List String), endsWithHyphen w = true →
      processedWords (w :: next :: rest) =
        strConcat (dropLastChar w) next :: processedWords rest) ∧
    (∀ (w next : String) (rest : List String), endsWithHyphen w = false →
      processedWords (w :: next :: rest) = w :: processedWords (next :: rest)) ∧
    (∀ ws : List String, assembleSentence ws = pyCapitalize (joinSpace (processedWords ws))) ∧
    (∀ (c : Char) (cs : List Char),
      pyCapitalize (String.mk (c :: cs)) = String.mk (c.toUpper :: cs.map Char.toLower)) := by
  refine ⟨by decide, ?_, ?_, fun _ => rfl, fun c cs => rfl⟩
  · intro w next rest h
    simp [processedWords, h]
  · intro w next rest h
    simp [processedWords, h]

theorem claimC9_witness :
    endsWithHyphen "pre-" = true ∧
    processedWords ["pre-", "fix", "word"] =
      strConcat (dropLastChar "pre-") "fix" :: processedWords ["word"] :=
  ⟨by decide, claimC9.2.1 "pre-" "fix" ["word"] (by decide)⟩

/-! ## Claims C1 and C3 (code bugs, evaluated at the failing inputs) -/

/-- C1: the source `Typesetter.overlay_text` typesets one region per
member box of a group (no consolidation, no padding anywhere in its
signature), so a two-member group produces two per-box regions, neither of
which is the group's consolidated rectangle; a degenerate box is skipped
without error.  (The caller src/app.py lines 510-518 additionally passes
`padding`, `font_name` and `font_size` keyword arguments that
`overlay_text` does not accept.) -/
theorem claimC1 :
    overlayTextRegions [[polyA, polyD]] [["X", "Y"]] = [polyA.rect, polyD.rect] ∧
    consolidatedRegion [polyA, polyD] 0 = ⟨0, 10, 0, 30⟩ ∧
    polyA.rect ≠ consolidatedRegion [polyA, polyD] 0 ∧
    polyD.rect ≠ consolidatedRegion [polyA, polyD] 0 ∧
    overlayTextRegions [[polyZeroW]] [["Z"]] = [] := by decide

/-- C3: on the no-text branch `perform_ocr` returns a single empty list
(`return []`), not the `([], [])` pair shape of every other return path,
so the zero-detection outcome does not have the shape of the non-empty
case; the grouper itself does return an empty group list on empty input. -/
theorem claimC3 :
    performOcrResult none 20 20 = Sum.inl [] ∧
    (performOcrResult none 20 20).isLeft = true ∧
    performOcrResult (some []) 20 20 = Sum.inr ([], []) ∧
    (performOcrResult (some [detA]) 20 20).isLeft = false ∧
    sortBoxes [] 20 20 = [] := by decide

/-! ## Claim C2: the font-size binary search of `_fit_text` -/

theorem fitLoop_terminal (pred : Nat → Bool) (layout : Nat → List String)
    (b0 : Nat × List String) (low high : Nat) (best : Nat × List String)
    (hlh : high < low) (hl101 : low ≤ 101)
    (best_inv : (best = b0 ∧ ∀ s : Nat, 10 ≤ s → s < low → pred s = false) ∨
      (pred best.1 = true ∧ 10 ≤ best.1 ∧ best.1 < low ∧ best.2 = layout best.1 ∧
        ∀ s : Nat, best.1 < s → s < low → pred s = false))
    (upper : ∀ s : Nat, low ≤ s → s ≤ 100 → pred s = true → s ≤ high) :
    (best = b0 ∧ ∀ s : Nat, 10 ≤ s → s ≤ 100 → pred s = false) ∨
      (pred best.1 = true ∧ 10 ≤ best.1 ∧ best.1 ≤ 100 ∧ best.2 = layout best.1 ∧
        ∀ s : Nat, 10 ≤ s → s ≤ 100 → pred s = true → s ≤ best.1) := by
  rcases best_inv with ⟨hb, hnone⟩ | ⟨hp, h10, hlt, hlay, hmax⟩
  · left
    refine ⟨hb, fun s hs1 hs2 => ?_⟩
    by_cases hsl : s < low
    · exact hnone s hs1 hsl
    · cases hps : pred s
      · rfl
      · exact absurd (upper s (le_of_not_lt hsl) hs2 hps) (by omega)
  · right
    refine ⟨hp, h10, by omega, hlay, fun s hs1 hs2 hps => ?_⟩
    by_cases hsl : s < low
    · by_contra hgt
      rw [hmax s (by omega) hsl] at hps
      exact Bool.false_ne_true hps
    · exact absurd (upper s (le_of_not_lt hsl) hs2 hps) (by omega)

theorem fitLoop_spec (pred : Nat → Bool) (layout : Nat → List String) (b0 : Nat × List String)
    (hmono : ∀ s t : Nat, 10 ≤ s → s ≤ t → t ≤ 100 → pred t = true → pred s = true) :
    ∀ (fuel low high : Nat) (best : Nat × List String),
      high + 1 - low ≤ fuel → 10 ≤ low → low ≤ 101 → high ≤ 100 →
      ((best = b0 ∧ ∀ s : Nat, 10 ≤ s → s < low → pred s = false) ∨
        (pred best.1 = true ∧ 10 ≤ best.1 ∧ best.1 < low ∧ best.2 = layout best.1 ∧
          ∀ s : Nat, best.1 < s → s < low → pred s = false)) →
      (∀ s : Nat, low ≤ s → s ≤ 100 → pred s = true → s ≤ high) →
      ((fitLoop pred layout fuel low high best = b0 ∧
          ∀ s : Nat, 10 ≤ s → s ≤ 100 → pred s = false) ∨
        (pred (fitLoop pred layout fuel low high best).1 = true ∧
          10 ≤ (fitLoop pred layout fuel low high best).1 ∧
          (fitLoop pred layout fuel low high best).1 ≤ 100 ∧
          (fitLoop pred layout fuel low high best).2 =
            layout (fitLoop pred layout fuel low high best).1 ∧
          ∀ s : Nat, 10 ≤ s → s ≤ 100 → pred s = true →
            s ≤ (fitLoop pred layout fuel low high best).1)) := by
  intro fuel
  induction fuel with
  | zero =>
    intro low high best hf hl10 hl101 hh best_inv upper
    have hlh : high < low := by omega
    simpa [fitLoop] using fitLoop_terminal pred layout b0 low high best hlh hl101 best_inv upper
  | succ fuel ih =>
    intro low high best hf hl10 hl101 hh best_inv upper
    by_cases hlh : low ≤ high
    · have hmid1 : low ≤ (low + high) / 2 := by omega
      have hmid2 : (low + high) / 2 ≤ high := by omega
      rw [show fitLoop pred layout (fuel + 1) low high best =
          (if low ≤ high then
            (if pred ((low + high) / 2) then
              fitLoop pred layout fuel ((low + high) / 2 + 1) high
                ((low + high) / 2, layout ((low + high) / 2))
            else fitLoop pred layout fuel low ((low + high) / 2 - 1) best)
          else best) from rfl, if_pos hlh]
      cases hp : pred ((low + high) / 2)
      · refine ih low ((low + high) / 2 - 1) best (by omega) hl10 hl101 (by omega) best_inv ?_
        intro s hs h100 hps
        by_cases hsm : (low + high) / 2 ≤ s
        · rw [hmono ((low + high) / 2) s (by omega) hsm h100 hps] at hp
          exact absurd hp (by simp)
        · omega
      · refine ih ((low + high) / 2 + 1) high ((low + high) / 2, layout ((low + high) / 2))
          (by omega) (by omega) (by omega) hh
          (Or.inr ⟨hp, by omega, by omega, rfl,
            fun s h1 h2 => absurd (Nat.lt_of_lt_of_le h1 (Nat.lt_succ_iff.mp h2))
              (lt_irrefl _)⟩) ?_
        intro s hs h100 hps
        exact upper s (by omega) h100 hps
    · have hlh2 : high < low := by omega
      rw [show fitLoop pred layout (fuel + 1) low high best =
          (if low ≤ high then
            (if pred ((low + high) / 2) then
              fitLoop pred layout fuel ((low + high) / 2 + 1) high
                ((low + high) / 2, layout ((low + high) / 2))
            else fitLoop pred layout fuel low ((low + high) / 2 - 1) best)
          else best) from rfl, if_neg hlh]
      exact fitLoop_terminal pred layout b0 low high best hlh2 hl101 best_inv upper

/-- C2 (amended): `_fit_text` is a binary search over integer sizes 10..100
on the predicate (total wrapped block height fits and every wrapped line's
width fits); provided the fit predicate is non-increasing in size (which
the search trusts), it returns the largest satisfying size in the range
together with that size's word-wrapped layout; when no size in the range
satisfies the predicate, it returns the minimum size with the single-line
layout `[text]` — the unwrapped original string, not the minimum size's
word-wrapped layout. -/
theorem claimC2 (tl : String → Nat → Int) (bb : String → Nat → Int × Int) (text : String)
    (maxW maxH : Int)
    (hmono : ∀ s t : Nat, 10 ≤ s → s ≤ t → t ≤ 100 →
      fitsAt tl bb text maxW maxH t = true → fitsAt tl bb text maxW maxH s = true) :
    ((∀ s : Nat, 10 ≤ s → s ≤ 100 → fitsAt tl bb text maxW maxH s = false) →
      fitText tl bb text maxW maxH = (10, [text])) ∧
    (∀ k : Nat, 10 ≤ k → k ≤ 100 → fitsAt tl bb text maxW maxH k = true →
      fitsAt tl bb text maxW maxH (fitText tl bb text maxW maxH).1 = true ∧
      10 ≤ (fitText tl bb text maxW maxH).1 ∧ (fitText tl bb text maxW maxH).1 ≤ 100 ∧
      (fitText tl bb text maxW maxH).2 =
        wrapText (fun u => tl u (fitText tl bb text maxW maxH).1) text maxW ∧
      ∀ s : Nat, 10 ≤ s → s ≤ 100 → fitsAt tl bb text maxW maxH s = true →
        s ≤ (fitText tl bb text maxW maxH).1) := by
  have H := fitLoop_spec (fitsAt tl bb text maxW maxH)
    (fun s => wrapText (fun u => tl u s) text maxW) (10, [text]) hmono 91 10 100 (10, [text])
    (by omega) (by omega) (by omega) (by omega)
    (Or.inl ⟨rfl, fun s h1 h2 => absurd h2 (by omega)⟩)
    (fun s hs h100 _ => h100)
  rcases H with ⟨heq, hall⟩ | ⟨hp, h10, h100, hlay, hmax⟩
  · refine ⟨fun _ => heq, fun k hk1 hk2 hk3 => ?_⟩
    rw [hall k hk1 hk2] at hk3
    exact absurd hk3 Bool.false_ne_true
  · refine ⟨fun hnone => ?_, fun k hk1 hk2 hk3 => ⟨hp, h10, h100, hlay, hmax⟩⟩
    rw [hnone _ h10 h100] at hp
    exact absurd hp Bool.false_ne_true

theorem claimC2_witness :
    fitsAt tlMono bbMono "hi" 0 50 (fitText tlMono bbMono "hi" 0 50).1 = true ∧
    10 ≤ (fitText tlMono bbMono "hi" 0 50).1 ∧ (fitText tlMono bbMono "hi" 0 50).1 ≤ 100 ∧
    (fitText tlMono bbMono "hi" 0 50).2 =
      wrapText (fun u => tlMono u (fitText tlMono bbMono "hi" 0 50).1) "hi" 0 := by
  have h := (claimC2 tlMono bbMono "hi" 0 50 (fun s t _ _ _ _ => rfl)).2 10
    (by omega) (by omega) rfl
  exact ⟨h.1, h.2.1, h.2.2.1, h.2.2.2.1⟩

/-- C2 counterexample: under a proportional measurement no size in 10..100
fits a width-5 region, and `_fit_text` then returns the initial
`best_lines = [text]` (the unwrapped string), not the word-wrapped layout
computed at the minimum size, which here is `["", "a", "a", "bb"]`;
moreover, under a non-monotone height measurement that fits at size 80 the
search returns size 20, not the largest satisfying size in the range. -/
theorem claimC2_counterexample :
    ((List.range 91).all (fun k => !fitsAt tlWide bbWide "aa bb" 5 1000 (10 + k))) = true ∧
    fitText tlWide bbWide "aa bb" 5 1000 = (10, ["aa bb"]) ∧
    wrapText (fun u => tlWide u 10) "aa bb" 5 = ["", "a", "a", "bb"] ∧
    (fitText tlWide bbWide "aa bb" 5 1000).2 ≠ wrapText (fun u => tlWide u 10) "aa bb" 5 ∧
    fitsAt tlMono bbOdd "hi" 0 0 80 = true ∧
    fitText tlMono bbOdd "hi" 0 0 = (20, ["hi"]) := by
  decide

/-! ## The grouper: traversal lemmas -/

theorem pushNbrs_vis {n : Nat} :
    ∀ (ns stack : List (Fin n)) (vis : Finset (Fin n)),
      (pushNbrs ns stack vis).2 = vis ∪ ns.toFinset
  | [], stack, vis => by simp [pushNbrs]
  | j :: rest, stack, vis => by
    by_cases h : j ∈ vis
    · rw [pushNbrs, if_pos h, pushNbrs_vis rest stack vis]
      ext x
      simp only [Finset.mem_union, List.toFinset_cons, Finset.mem_insert, List.mem_toFinset]
      constructor
      · tauto
      · rintro (hx | rfl | hx) <;> tauto
    · rw [pushNbrs, if_neg h, pushNbrs_vis rest (j :: stack) (insert j vis)]
      ext x
      simp only [Finset.mem_union, List.toFinset_cons, Finset.mem_insert, List.mem_toFinset]
      tauto

theorem pushNbrs_card {n : Nat} :
    ∀ (ns stack : List (Fin n)) (vis : Finset (Fin n)),
      (pushNbrs ns stack vis).1.length + vis.card =
        stack.length + (pushNbrs ns stack vis).2.card
  | [], stack, vis => by simp [pushNbrs]
  | j :: rest, stack, vis => by
    by_cases h : j ∈ vis
    · rw [pushNbrs, if_pos h]
      exact pushNbrs_card rest stack vis
    · rw [pushNbrs, if_neg h]
      have := pushNbrs_card rest (j :: stack) (insert j vis)
      rw [Finset.card_insert_of_not_mem h] at this
      simp only [List.length_cons] at this
      omega

theorem pushNbrs_stack_mem {n : Nat} :
    ∀ (ns stack : List (Fin n)) (vis : Finset (Fin n)) (x : Fin n),
      x ∈ (pushNbrs ns stack vis).1 ↔ x ∈ stack ∨ (x ∈ ns ∧ x ∉ vis)
  | [], stack, vis, x => by simp [pushNbrs]
  | j :: rest, stack, vis, x => by
    by_cases h : j ∈ vis
    · rw [pushNbrs, if_pos h, pushNbrs_stack_mem rest stack vis x]
      simp only [List.mem_cons]
      constructor
      · tauto
      · rintro (hx | ⟨(rfl | hx), hv⟩) <;> tauto
    · rw [pushNbrs, if_neg h, pushNbrs_stack_mem rest (j :: stack) (insert j vis) x]
      simp only [List.mem_cons, Finset.mem_insert]
      by_cases hx : x = j
      · subst hx
        tauto
      · constructor
        · rintro ((rfl | hs) | ⟨hr, hv⟩) <;> tauto
        · rintro (hs | ⟨(rfl | hr), hv⟩) <;> tauto

theorem pushNbrs_nodup_sub {n : Nat} :
    ∀ (ns stack : List (Fin n)) (vis : Finset (Fin n)),
      stack.Nodup → (∀ x ∈ stack, x ∈ vis) →
      (pushNbrs ns stack vis).1.Nodup ∧
        ∀ x ∈ (pushNbrs ns stack vis).1, x ∈ (pushNbrs ns stack vis).2
  | [], stack, vis, hnd, hsub => by simpa [pushNbrs] using ⟨hnd, hsub⟩
  | j :: rest, stack, vis, hnd, hsub => by
    by_cases h : j ∈ vis
    · rw [pushNbrs, if_pos h]
      exact pushNbrs_nodup_sub rest stack vis hnd hsub
    · rw [pushNbrs, if_neg h]
      refine pushNbrs_nodup_sub rest (j :: stack) (insert j vis) ?_ ?_
      · exact List.nodup_cons.mpr ⟨fun hj => h (hsub j hj), hnd⟩
      · intro x hx
        rcases List.mem_cons.mp hx with rfl | hx
        · exact Finset.mem_insert_self x _
        · exact Finset.mem_insert_of_mem (hsub x hx)

theorem pushNbrs_vis_sub {n : Nat} (ns stack : List (Fin n)) (vis : Finset (Fin n)) :
    vis ⊆ (pushNbrs ns stack vis).2 := by
  rw [pushNbrs_vis]
  exact Finset.subset_union_left

theorem dfsLoop_spec {n : Nat} (adj : Fin n → List (Fin n)) :
    ∀ (fuel : Nat) (stack : List (Fin n)) (vis : Finset (Fin n)),
      2 * (n - vis.card) + stack.length ≤ fuel →
      stack.Nodup → (∀ x ∈ stack, x ∈ vis) →
      vis ⊆ (dfsLoop adj fuel stack vis).2 ∧
      (dfsLoop adj fuel stack vis).1.Nodup ∧
      (dfsLoop adj fuel stack vis).1.toFinset =
        stack.toFinset ∪ ((dfsLoop adj fuel stack vis).2 \ vis) ∧
      (∀ x ∈ (dfsLoop adj fuel stack vis).1, ∀ y ∈ adj x, y ∈ (dfsLoop adj fuel stack vis).2) := by
  intro fuel
  induction fuel with
  | zero =>
    intro stack vis hm hnd hsub
    have hstack : stack = [] := List.length_eq_zero.mp (by omega)
    subst hstack
    refine ⟨Finset.Subset.refl _, List.nodup_nil, ?_, by simp [dfsLoop]⟩
    simp [dfsLoop]
  | succ fuel ih =>
    intro stack vis hm hnd hsub
    match stack with
    | [] =>
      refine ⟨Finset.Subset.refl _, List.nodup_nil, ?_, by simp [dfsLoop]⟩
      simp [dfsLoop]
    | curr :: rest =>
      have hcur : curr ∈ vis := hsub curr (List.mem_cons_self curr rest)
      have hndr : rest.Nodup := (List.nodup_cons.mp hnd).2
      have hcnr : curr ∉ rest := (List.nodup_cons.mp hnd).1
      have hsubr : ∀ x ∈ rest, x ∈ vis := fun x hx => hsub x (List.mem_cons_of_mem curr hx)
      have hv2 := pushNbrs_vis (adj curr) rest vis
      have hcard := pushNbrs_card (adj curr) rest vis
      have hnds := pushNbrs_nodup_sub (adj curr) rest vis hndr hsubr
      have hvsub := pushNbrs_vis_sub (adj curr) rest vis
      have hcardle : vis.card ≤ (pushNbrs (adj curr) rest vis).2.card :=
        Finset.card_le_card hvsub
      have hcardn : (pushNbrs (adj curr) rest vis).2.card ≤ n := by
        have := Finset.card_le_univ (pushNbrs (adj curr) rest vis).2
        simpa [Fintype.card_fin] using this
      have hm2 : 2 * (n - (pushNbrs (adj curr) rest vis).2.card) +
          (pushNbrs (adj curr) rest vis).1.length ≤ fuel := by
        simp only [List.length_cons] at hm
        omega
      obtain ⟨ih1, ih2, ih3, ih4⟩ :=
        ih (pushNbrs (adj curr) rest vis).1 (pushNbrs (adj curr) rest vis).2 hm2 hnds.1 hnds.2
      have hrun : dfsLoop adj (fuel + 1) (curr :: rest) vis =
          (curr :: (dfsLoop adj fuel (pushNbrs (adj curr) rest vis).1
              (pushNbrs (adj curr) rest vis).2).1,
            (dfsLoop adj fuel (pushNbrs (adj curr) rest vis).1
              (pushNbrs (adj curr) rest vis).2).2) := rfl
      rw [hrun]
      have hvis2 : vis ⊆ (dfsLoop adj fuel (pushNbrs (adj curr) rest vis).1
          (pushNbrs (adj curr) rest vis).2).2 := hvsub.trans ih1
      refine ⟨hvis2, ?_, ?_, ?_⟩
      · refine List.nodup_cons.mpr ⟨?_, ih2⟩
        intro hcurm
        have := ih3 ▸ List.mem_toFinset.mpr hcurm
        rcases Finset.mem_union.mp this with hs | hd
        · rcases (pushNbrs_stack_mem (adj curr) rest vis curr).mp
            (List.mem_toFinset.mp hs) with hr | ⟨_, hv⟩
          · exact hcnr hr
          · exact hv hcur
        · exact (Finset.mem_sdiff.mp hd).2 (hvsub hcur)
      · ext x
        simp only [List.toFinset_cons, Finset.mem_insert, Finset.mem_union, Finset.mem_sdiff,
          List.mem_toFinset]
        have hx3 : x ∈ (dfsLoop adj fuel (pushNbrs (adj curr) rest vis).1
            (pushNbrs (adj curr) rest vis).2).1 ↔
            x ∈ (pushNbrs (adj curr) rest vis).1 ∨
              (x ∈ (dfsLoop adj fuel (pushNbrs (adj curr) rest vis).1
                (pushNbrs (adj curr) rest vis).2).2 ∧
                x ∉ (pushNbrs (adj curr) rest vis).2) := by
          have := Finset.ext_iff.mp ih3 x
          simpa [Finset.mem_union, Finset.mem_sdiff, List.mem_toFinset] using this
        have hsm := pushNbrs_stack_mem (adj curr) rest vis x
        have hv2x : x ∈ (pushNbrs (adj curr) rest vis).2 ↔ x ∈ vis ∨ x ∈ adj curr := by
          rw [hv2]
          simp [Finset.mem_union, List.mem_toFinset]
        have hadj1 : x ∈ adj curr → x ∈ (dfsLoop adj fuel (pushNbrs (adj curr) rest vis).1
            (pushNbrs (adj curr) rest vis).2).2 :=
          fun ha => ih1 (hv2x.mpr (Or.inr ha))
        constructor
        · rintro (rfl | hx)
          · exact Or.inl (Or.inl rfl)
          · rcases hx3.mp hx with hs | ⟨hd, hnv⟩
            · rcases hsm.mp hs with hr | ⟨ha, hv⟩
              · exact Or.inl (Or.inr hr)
              · exact Or.inr ⟨hadj1 ha, hv⟩
            · exact Or.inr ⟨hd, fun hv => hnv (hv2x.mpr (Or.inl hv))⟩
        · rintro ((rfl | hr) | ⟨hd, hnv⟩)
          · exact Or.inl rfl
          · exact Or.inr (hx3.mpr (Or.inl (hsm.mpr (Or.inl hr))))
          · by_cases ha : x ∈ adj curr
            · exact Or.inr (hx3.mpr (Or.inl (hsm.mpr (Or.inr ⟨ha, hnv⟩))))
            · refine Or.inr (hx3.mpr (Or.inr ⟨hd, ?_⟩))
              intro hmem
              rcases hv2x.mp hmem with hv | hv
              · exact hnv hv
              · exact ha hv
      · intro x hx y hy
        rcases List.mem_cons.mp hx with rfl | hx
        · have hy2 : y ∈ (pushNbrs (adj x) rest vis).2 := by
            rw [hv2]
            exact Finset.mem_union_right vis (List.mem_toFinset.mpr hy)
          exact ih1 hy2
        · exact ih4 x hx y hy

theorem dfsLoop_reach {n : Nat} (adj : Fin n → List (Fin n)) (root : Fin n) :
    ∀ (fuel : Nat) (stack : List (Fin n)) (vis : Finset (Fin n)),
      (∀ x ∈ stack, Relation.ReflTransGen (fun a b => b ∈ adj a) root x) →
      ∀ x ∈ (dfsLoop adj fuel stack vis).1,
        Relation.ReflTransGen (fun a b => b ∈ adj a) root x := by
  intro fuel
  induction fuel with
  | zero =>
    intro stack vis hst x hx
    simp [dfsLoop] at hx
  | succ fuel ih =>
    intro stack vis hst x hx
    match stack with
    | [] => simp [dfsLoop] at hx
    | curr :: rest =>
      have hrun : (dfsLoop adj (fuel + 1) (curr :: rest) vis).1 =
          curr :: (dfsLoop adj fuel (pushNbrs (adj curr) rest vis).1
            (pushNbrs (adj curr) rest vis).2).1 := rfl
      rw [hrun] at hx
      rcases List.mem_cons.mp hx with rfl | hx
      · exact hst x (List.mem_cons_self x rest)
      · refine ih (pushNbrs (adj curr) rest vis).1 (pushNbrs (adj curr) rest vis).2 ?_ x hx
        intro z hz
        rcases (pushNbrs_stack_mem (adj curr) rest vis z).mp hz with hr | ⟨ha, _⟩
        · exact hst z (List.mem_cons_of_mem curr hr)
        · exact (hst curr (List.mem_cons_self curr rest)).tail ha

theorem dfs_call {n : Nat} (adj : Fin n → List (Fin n)) (i : Fin n) (vis : Finset (Fin n)) :
    insert i vis ⊆ (dfsLoop adj (2 * n + 1) [i] (insert i vis)).2 ∧
    (dfsLoop adj (2 * n + 1) [i] (insert i vis)).1.Nodup ∧
    (dfsLoop adj (2 * n + 1) [i] (insert i vis)).1.toFinset =
      {i} ∪ ((dfsLoop adj (2 * n + 1) [i] (insert i vis)).2 \ insert i vis) ∧
    (∀ x ∈ (dfsLoop adj (2 * n + 1) [i] (insert i vis)).1, ∀ y ∈ adj x,
      y ∈ (dfsLoop adj (2 * n + 1) [i] (insert i vis)).2) := by
  have hcle : (insert i vis).card ≤ n := by
    have := Finset.card_le_univ (insert i vis)
    simpa [Fintype.card_fin] using this
  have hm : 2 * (n - (insert i vis).card) + [i].length ≤ 2 * n + 1 := by
    simp only [List.length_singleton]
    omega
  have h := dfsLoop_spec adj (2 * n + 1) [i] (insert i vis) hm (List.nodup_singleton i)
    (by
      intro x hx
      obtain rfl := List.mem_singleton.mp hx
      exact Finset.mem_insert_self x vis)
  simpa using h

theorem dfs_call_sub {n : Nat} (adj : Fin n → List (Fin n)) (i : Fin n) (vis : Finset (Fin n)) :
    ∀ x ∈ (dfsLoop adj (2 * n + 1) [i] (insert i vis)).1,
      x ∈ (dfsLoop adj (2 * n + 1) [i] (insert i vis)).2 := by
  obtain ⟨hsub, _, hfin, _⟩ := dfs_call adj i vis
  intro x hx
  have := hfin ▸ List.mem_toFinset.mpr hx
  rcases Finset.mem_union.mp this with hx1 | hx2
  · obtain rfl := Finset.mem_singleton.mp hx1
    exact hsub (Finset.mem_insert_self x vis)
  · exact (Finset.mem_sdiff.mp hx2).1

theorem dfs_call_mem_root {n : Nat} (adj : Fin n → List (Fin n)) (i : Fin n)
    (vis : Finset (Fin n)) : i ∈ (dfsLoop adj (2 * n + 1) [i] (insert i vis)).1 := by
  obtain ⟨_, _, hfin, _⟩ := dfs_call adj i vis
  have : i ∈ (dfsLoop adj (2 * n + 1) [i] (insert i vis)).1.toFinset := by
    rw [hfin]
    exact Finset.mem_union_left _ (Finset.mem_singleton_self i)
  exact List.mem_toFinset.mp this

theorem groupLoop_run {n : Nat} (adj : Fin n → List (Fin n)) (i : Fin n)
    (rest : List (Fin n)) (vis : Finset (Fin n)) :
    groupLoop adj (i :: rest) vis =
      if i ∈ vis then groupLoop adj rest vis
      else (dfsLoop adj (2 * n + 1) [i] (insert i vis)).1 ::
        groupLoop adj rest (dfsLoop adj (2 * n + 1) [i] (insert i vis)).2 := rfl

theorem groupLoop_fresh {n : Nat} (adj : Fin n → List (Fin n)) :
    ∀ (todo : List (Fin n)) (vis : Finset (Fin n)),
      ∀ c ∈ groupLoop adj todo vis, ∀ x ∈ c, x ∉ vis := by
  intro todo
  induction todo with
  | nil => intro vis c hc; simp [groupLoop] at hc
  | cons i rest ih =>
    intro vis c hc
    rw [groupLoop_run] at hc
    by_cases h : i ∈ vis
    · rw [if_pos h] at hc
      exact ih vis c hc
    · rw [if_neg h] at hc
      obtain ⟨hsub, hnd, hfin, hcl⟩ := dfs_call adj i vis
      rcases List.mem_cons.mp hc with rfl | hc
      · intro x hx hxv
        have := hfin ▸ List.mem_toFinset.mpr hx
        rcases Finset.mem_union.mp this with hx1 | hx2
        · obtain rfl := Finset.mem_singleton.mp hx1
          exact h hxv
        · exact (Finset.mem_sdiff.mp hx2).2 (Finset.mem_insert_of_mem hxv)
      · intro x hx hxv
        exact ih _ c hc x hx (hsub (Finset.mem_insert_of_mem hxv))

theorem groupLoop_flatten_nodup {n : Nat} (adj : Fin n → List (Fin n)) :
    ∀ (todo : List (Fin n)) (vis : Finset (Fin n)),
      (groupLoop adj todo vis).flatten.Nodup := by
  intro todo
  induction todo with
  | nil => intro vis; simp [groupLoop]
  | cons i rest ih =>
    intro vis
    rw [groupLoop_run]
    by_cases h : i ∈ vis
    · rw [if_pos h]
      exact ih vis
    · rw [if_neg h]
      obtain ⟨hsub, hnd, hfin, hcl⟩ := dfs_call adj i vis
      rw [List.flatten_cons]
      refine List.Nodup.append hnd (ih _) ?_
      intro x hx1 hx2
      have hx2' : x ∈ (dfsLoop adj (2 * n + 1) [i] (insert i vis)).2 :=
        dfs_call_sub adj i vis x hx1
      obtain ⟨c, hc, hxc⟩ := List.mem_flatten.mp hx2
      exact groupLoop_fresh adj rest _ c hc x hxc hx2'

theorem groupLoop_cover {n : Nat} (adj : Fin n → List (Fin n)) :
    ∀ (todo : List (Fin n)) (vis : Finset (Fin n)),
      ∀ x ∈ todo, x ∉ vis → ∃ c ∈ groupLoop adj todo vis, x ∈ c := by
  intro todo
  induction todo with
  | nil => intro vis x hx; simp at hx
  | cons i rest ih =>
    intro vis x hx hxv
    rw [groupLoop_run]
    by_cases h : i ∈ vis
    · rw [if_pos h]
      rcases List.mem_cons.mp hx with rfl | hx
      · exact absurd h hxv
      · exact ih vis x hx hxv
    · rw [if_neg h]
      obtain ⟨hsub, hnd, hfin, hcl⟩ := dfs_call adj i vis
      by_cases hx2 : x ∈ (dfsLoop adj (2 * n + 1) [i] (insert i vis)).2
      · refine ⟨(dfsLoop adj (2 * n + 1) [i] (insert i vis)).1, List.mem_cons_self _ _, ?_⟩
        by_cases hxi : x = i
        · subst hxi
          exact dfs_call_mem_root adj x vis
        · refine List.mem_toFinset.mp (hfin ▸ Finset.mem_union_right _ ?_)
          refine Finset.mem_sdiff.mpr ⟨hx2, ?_⟩
          intro hmem
          rcases Finset.mem_insert.mp hmem with rfl | hv
          · exact hxi rfl
          · exact hxv hv
      · rcases List.mem_cons.mp hx with rfl | hx
        · exact absurd (hsub (Finset.mem_insert_self x vis)) hx2
        · obtain ⟨c, hc, hxc⟩ := ih _ x hx hx2
          exact ⟨c, List.mem_cons_of_mem _ hc, hxc⟩

theorem groupLoop_root {n : Nat} (adj : Fin n → List (Fin n)) :
    ∀ (todo : List (Fin n)) (vis : Finset (Fin n)),
      ∀ c ∈ groupLoop adj todo vis, ∃ r, r ∈ c ∧
        ∀ x ∈ c, Relation.ReflTransGen (fun a b => b ∈ adj a) r x := by
  intro todo
  induction todo with
  | nil => intro vis c hc; simp [groupLoop] at hc
  | cons i rest ih =>
    intro vis c hc
    rw [groupLoop_run] at hc
    by_cases h : i ∈ vis
    · rw [if_pos h] at hc
      exact ih vis c hc
    · rw [if_neg h] at hc
      rcases List.mem_cons.mp hc with rfl | hc
      · refine ⟨i, dfs_call_mem_root adj i vis, ?_⟩
        exact dfsLoop_reach adj i (2 * n + 1) [i] (insert i vis)
          (by
            intro x hx
            obtain rfl := List.mem_singleton.mp hx
            exact Relation.ReflTransGen.refl)
      · exact ih _ c hc

theorem groupLoop_closed {n : Nat} (adj : Fin n → List (Fin n))
    (hsym : ∀ a b : Fin n, a ∈ adj b ↔ b ∈ adj a) :
    ∀ (todo : List (Fin n)) (vis : Finset (Fin n)),
      (∀ x ∈ vis, ∀ y ∈ adj x, y ∈ vis) →
      ∀ c ∈ groupLoop adj todo vis, ∀ x ∈ c, ∀ y ∈ adj x, y ∈ c := by
  intro todo
  induction todo with
  | nil => intro vis hclosed c hc; simp [groupLoop] at hc
  | cons i rest ih =>
    intro vis hclosed c hc
    rw [groupLoop_run] at hc
    by_cases h : i ∈ vis
    · rw [if_pos h] at hc
      exact ih vis hclosed c hc
    · rw [if_neg h] at hc
      obtain ⟨hsub, hnd, hfin, hcl⟩ := dfs_call adj i vis
      have hfresh : ∀ x ∈ (dfsLoop adj (2 * n + 1) [i] (insert i vis)).1, x ∉ vis := by
        intro x hx
        have := hfin ▸ List.mem_toFinset.mpr hx
        rcases Finset.mem_union.mp this with hx1 | hx2
        · obtain rfl := Finset.mem_singleton.mp hx1
          exact h
        · exact fun hv => (Finset.mem_sdiff.mp hx2).2 (Finset.mem_insert_of_mem hv)
      rcases List.mem_cons.mp hc with rfl | hc
      · intro x hx y hy
        have hy2 : y ∈ (dfsLoop adj (2 * n + 1) [i] (insert i vis)).2 := hcl x hx y hy
        by_cases hyc : y ∈ (dfsLoop adj (2 * n + 1) [i] (insert i vis)).1
        · exact hyc
        · exfalso
          have hyv : y ∈ vis := by
            by_contra hyv
            by_cases hyi : y = i
            · exact hyc (hyi ▸ dfs_call_mem_root adj i vis)
            · refine hyc (List.mem_toFinset.mp (hfin ▸ Finset.mem_union_right _ ?_))
              refine Finset.mem_sdiff.mpr ⟨hy2, ?_⟩
              intro hmem
              rcases Finset.mem_insert.mp hmem with rfl | hv
              · exact hyi rfl
              · exact hyv hv
          exact hfresh x hx (hclosed y hyv x ((hsym x y).mpr hy))
      · refine ih _ ?_ c hc
        intro z hz y hy
        by_cases hzi : z ∈ insert i vis
        · rcases Finset.mem_insert.mp hzi with rfl | hzv
          · exact hcl z (dfs_call_mem_root adj z vis) y hy
          · exact hsub (Finset.mem_insert_of_mem (hclosed z hzv y hy))
        · have hzc : z ∈ (dfsLoop adj (2 * n + 1) [i] (insert i vis)).1 := by
            refine List.mem_toFinset.mp (hfin ▸ Finset.mem_union_right _ ?_)
            exact Finset.mem_sdiff.mpr ⟨hz, hzi⟩
          exact hcl z hzc y hy

/-! ## The grouper: graph-level characterization -/

theorem xGap_comm (r1 r2 : Rect) : xGap r1 r2 = xGap r2 r1 := by
  unfold xGap getGap
  rw [max_comm r1.min_x r2.min_x, min_comm r1.max_x r2.max_x]

theorem yGap_comm (r1 r2 : Rect) : yGap r1 r2 = yGap r2 r1 := by
  unfold yGap getGap
  rw [max_comm r1.min_y r2.min_y, min_comm r1.max_y r2.max_y]

theorem connectsB_comm (xt yt : Int) (r1 r2 : Rect) :
    connectsB xt yt r1 r2 = connectsB xt yt r2 r1 := by
  unfold connectsB
  rw [xGap_comm, yGap_comm]

theorem edgeB_comm (items : List Item) (xt yt : Int) (i j : Fin items.length) :
    edgeB items xt yt i j = edgeB items xt yt j i := by
  unfold edgeB
  rw [connectsB_comm]
  congr 1
  rw [decide_eq_decide]
  exact ne_comm

theorem mem_nbrs (items : List Item) (xt yt : Int) (i j : Fin items.length) :
    j ∈ nbrs items xt yt i ↔ edgeB items xt yt i j = true := by
  simp [nbrs, List.mem_filter, List.mem_finRange]

theorem nbrs_symm (items : List Item) (xt yt : Int) (a b : Fin items.length) :
    a ∈ nbrs items xt yt b ↔ b ∈ nbrs items xt yt a := by
  rw [mem_nbrs, mem_nbrs, edgeB_comm]

theorem reachIdx_symm (items : List Item) (xt yt : Int) :
    Symmetric (ReachIdx items xt yt) := by
  apply Relation.ReflTransGen.symmetric
  intro a b hab
  rw [edgeB_comm items xt yt a b] at hab
  exact hab

theorem components_cover (items : List Item) (xt yt : Int) (i : Fin items.length) :
    ∃ c ∈ components items xt yt, i ∈ c :=
  groupLoop_cover (nbrs items xt yt) (List.finRange items.length) ∅ i
    (List.mem_finRange i) (Finset.not_mem_empty i)

theorem components_flatten_nodup (items : List Item) (xt yt : Int) :
    (components items xt yt).flatten.Nodup :=
  groupLoop_flatten_nodup (nbrs items xt yt) (List.finRange items.length) ∅

theorem components_same_reach (items : List Item) (xt yt : Int) :
    ∀ c ∈ components items xt yt, ∀ i ∈ c, ∀ j ∈ c, ReachIdx items xt yt i j := by
  intro c hc i hi j hj
  obtain ⟨r, hr, hreach⟩ := groupLoop_root (nbrs items xt yt) _ _ c hc
  have hmono : ∀ a b : Fin items.length, b ∈ nbrs items xt yt a →
      edgeB items xt yt a b = true :=
    fun a b hab => (mem_nbrs items xt yt a b).mp hab
  have h1 : ReachIdx items xt yt r i := Relation.ReflTransGen.mono hmono (hreach i hi)
  have h2 : ReachIdx items xt yt r j := Relation.ReflTransGen.mono hmono (hreach j hj)
  exact (reachIdx_symm items xt yt h1).trans h2

theorem components_step (items : List Item) (xt yt : Int) :
    ∀ c ∈ components items xt yt, ∀ i ∈ c, ∀ j : Fin items.length,
      edgeB items xt yt i j = true → j ∈ c := by
  intro c hc i hi j hedge
  refine groupLoop_closed (nbrs items xt yt) (fun a b => nbrs_symm items xt yt a b)
    (List.finRange items.length) ∅ (fun x hx => absurd hx (Finset.not_mem_empty x))
    c hc i hi j ?_
  exact (mem_nbrs items xt yt i j).mpr hedge

theorem mem_comp_of_reach (items : List Item) (xt yt : Int) {c : List (Fin items.length)}
    (hc : c ∈ components items xt yt) {i : Fin items.length} (hi : i ∈ c)
    {j : Fin items.length} (hij : ReachIdx items xt yt i j) : j ∈ c := by
  induction hij with
  | refl => exact hi
  | tail _ hbc ih => exact components_step items xt yt c hc _ ih _ hbc

theorem mem_sortBoxes_iff (items : List Item) (xt yt : Int) (g : List Item) :
    g ∈ sortBoxes items xt yt ↔ ∃ c ∈ components items xt yt,
      (c.insertionSort (memberLE items)).map items.get = g := by
  unfold sortBoxes
  rw [(List.perm_insertionSort groupLE _).mem_iff]
  simp [List.mem_map]

theorem flatten_map_sortComp_perm (items : List Item) :
    ∀ L : List (List (Fin items.length)),
      ((L.map (fun c => (c.insertionSort (memberLE items)).map items.get)).flatten).Perm
        ((L.map (fun c => c.map items.get)).flatten)
  | [] => List.Perm.refl _
  | c :: L => by
    rw [List.map_cons, List.map_cons, List.flatten_cons, List.flatten_cons]
    exact ((List.perm_insertionSort (memberLE items) c).map items.get).append
      (flatten_map_sortComp_perm items L)

/-! ## Claims C6, C7, C8 -/

/-- C6: for every detection list and non-negative thresholds, the grouper's
output is an exact partition of the input (the concatenation of the groups
is a permutation of the input list, so every detection occurs in exactly
one group exactly once), and any two detections joined by a chain of
pairwise-connected detections land in one and the same group. -/
theorem claimC6 (items : List Item) (xt yt : Int) (hx : 0 ≤ xt) (hy : 0 ≤ yt) :
    (sortBoxes items xt yt).flatten.Perm items ∧
    ∀ i j : Fin items.length, ReachIdx items xt yt i j →
      ∃ g ∈ sortBoxes items xt yt, items.get i ∈ g ∧ items.get j ∈ g := by
  constructor
  · have h1 : (sortBoxes items xt yt).flatten.Perm
        (((components items xt yt).map
          (fun c => (c.insertionSort (memberLE items)).map items.get)).flatten) :=
      (List.perm_insertionSort groupLE _).flatten
    have h2 := flatten_map_sortComp_perm items (components items xt yt)
    have h3 : ((components items xt yt).map (fun c => c.map items.get)).flatten
        = ((components items xt yt).flatten).map items.get :=
      (List.map_flatten items.get (components items xt yt)).symm
    rw [h3] at h2
    have h4 : ((components items xt yt).flatten).Perm (List.finRange items.length) := by
      refine (List.perm_ext_iff_of_nodup (components_flatten_nodup items xt yt)
        (List.nodup_finRange _)).mpr ?_
      intro a
      simp only [List.mem_finRange, iff_true]
      obtain ⟨c, hc, hac⟩ := components_cover items xt yt a
      exact List.mem_flatten.mpr ⟨c, hc, hac⟩
    have h5 : (((components items xt yt).flatten).map items.get).Perm items := by
      have := h4.map items.get
      rwa [List.finRange_map_get items] at this
    exact (h1.trans h2).trans h5
  · intro i j hij
    obtain ⟨c, hc, hic⟩ := components_cover items xt yt i
    have hjc : j ∈ c := mem_comp_of_reach items xt yt hc hic hij
    refine ⟨(c.insertionSort (memberLE items)).map items.get,
      (mem_sortBoxes_iff items xt yt _).mpr ⟨c, hc, rfl⟩, ?_, ?_⟩
    · exact List.mem_map.mpr
        ⟨i, (List.perm_insertionSort (memberLE items) c).mem_iff.mpr hic, rfl⟩
    · exact List.mem_map.mpr
        ⟨j, (List.perm_insertionSort (memberLE items) c).mem_iff.mpr hjc, rfl⟩

theorem claimC6_witness :
    (sortBoxes [detA, detB] 20 20).flatten.Perm [detA, detB] ∧
    ∃ g ∈ sortBoxes [detA, detB] 20 20,
      [detA, detB].get ⟨0, by decide⟩ ∈ g ∧ [detA, detB].get ⟨1, by decide⟩ ∈ g := by
  have h := claimC6 [detA, detB] 20 20 (by decide) (by decide)
  exact ⟨h.1, h.2 ⟨0, by decide⟩ ⟨1, by decide⟩
    (Relation.ReflTransGen.single (by decide))⟩

/-- C7: the pairwise gaps are exactly
`max(0, max(minx_i, minx_j) - min(maxx_i, maxx_j))` per axis, an edge joins
two detections iff both gaps are within the thresholds (distinct indices),
the boundary is inclusive (`x_gap = 20 = x_threshold`, `y_gap = 20` is
merged into one group), and `x_gap = 21 = x_threshold + 1` with `y_gap`
within threshold is not directly connected and stays in separate groups. -/
theorem claimC7 :
    (∀ r1 r2 : Rect, xGap r1 r2 = max 0 (max r1.min_x r2.min_x - min r1.max_x r2.max_x) ∧
      yGap r1 r2 = max 0 (max r1.min_y r2.min_y - min r1.max_y r2.max_y)) ∧
    (∀ (items : List Item) (xt yt : Int) (i j : Fin items.length),
      edgeB items xt yt i j = true ↔ (i ≠ j ∧
        xGap (itemRect (items.get i)) (itemRect (items.get j)) ≤ xt ∧
        yGap (itemRect (items.get i)) (itemRect (items.get j)) ≤ yt)) ∧
    xGap (itemRect detA) (itemRect detB) = 20 ∧ yGap (itemRect detA) (itemRect detB) = 20 ∧
    sortBoxes [detA, detB] 20 20 = [[detA, detB]] ∧
    xGap (itemRect detA) (itemRect detC) = 21 ∧ yGap (itemRect detA) (itemRect detC) = 20 ∧
    edgeB [detA, detC] 20 20 ⟨0, by decide⟩ ⟨1, by decide⟩ = false ∧
    sortBoxes [detA, detC] 20 20 = [[detA], [detC]] := by
  refine ⟨fun r1 r2 => ⟨rfl, rfl⟩, ?_, by decide, by decide, by decide, by decide, by decide,
    by decide, by decide⟩
  intro items xt yt i j
  simp [edgeB, connectsB, Bool.and_eq_true, decide_eq_true_iff, and_assoc]

theorem claimC7_witness :
    xGap (itemRect detA) (itemRect detB) =
      max 0 (max (itemRect detA).min_x (itemRect detB).min_x -
        min (itemRect detA).max_x (itemRect detB).max_x) ∧
    yGap (itemRect detA) (itemRect detB) =
      max 0 (max (itemRect detA).min_y (itemRect detB).min_y -
        min (itemRect detA).max_y (itemRect detB).max_y) :=
  claimC7.1 (itemRect detA) (itemRect detB)

/-- C8: the emitted groups are sorted by ascending `get_group_y` (the
minimum `min_y` over the group's members), and within every group the
members are sorted by ascending bounding-rect `min_y`. -/
theorem claimC8 (items : List Item) (xt yt : Int) :
    List.Sorted groupLE (sortBoxes items xt yt) ∧
    (∀ g ∈ sortBoxes items xt yt,
      List.Sorted (fun a b : Item => rectMinY a ≤ rectMinY b) g) ∧
    (∀ (it : Item) (rest : List Item),
      getGroupY (it :: rest) = (rest.map rectMinY).foldl min (rectMinY it)) := by
  refine ⟨?_, ?_, ?_⟩
  · haveI : IsTotal (List Item) groupLE := ⟨fun a b => le_total (getGroupY a) (getGroupY b)⟩
    haveI : IsTrans (List Item) groupLE := ⟨fun a b c h1 h2 => le_trans h1 h2⟩
    exact List.sorted_insertionSort groupLE _
  · intro g hg
    obtain ⟨c, hc, hfc⟩ := (mem_sortBoxes_iff items xt yt g).mp hg
    subst hfc
    haveI : IsTotal (Fin items.length) (memberLE items) := ⟨fun a b => le_total _ _⟩
    haveI : IsTrans (Fin items.length) (memberLE items) :=
      ⟨fun a b c h1 h2 => le_trans h1 h2⟩
    have hs : List.Pairwise (memberLE items) (c.insertionSort (memberLE items)) :=
      List.sorted_insertionSort (memberLE items) c
    show List.Pairwise _ _
    exact List.pairwise_map.mpr hs
  · intro it rest
    exact (List.foldl_map rectMinY min rest (rectMinY it)).symm

theorem claimC8_witness :
    List.Sorted groupLE (sortBoxes [detA, detB] 20 20) ∧
    List.Sorted (fun a b : Item => rectMinY a ≤ rectMinY b) [detA, detB] :=
  ⟨(claimC8 [detA, detB] 20 20).1,
    (claimC8 [detA, detB] 20 20).2.1 [detA, detB] (by decide)⟩

/-! ## Claim C10: the partition depends only on the multiset of detections -/

theorem reachIdx_to_reachV (items : List Item) (xt yt : Int) {i j : Fin items.length}
    (h : ReachIdx items xt yt i j) :
    ReachV items.toFinset xt yt (items.get i) (items.get j) := by
  induction h with
  | refl => exact Relation.ReflTransGen.refl
  | @tail b c _ hbc ih =>
    refine ih.tail ?_
    simp only [edgeB, Bool.and_eq_true] at hbc
    obtain ⟨-, hcon⟩ := hbc
    exact ⟨List.mem_toFinset.mpr (items.get_mem b.1 b.2),
      List.mem_toFinset.mpr (items.get_mem c.1 c.2), hcon⟩

theorem reachV_lift (items : List Item) (xt yt : Int) (i : Fin items.length) :
    ∀ {y : Item}, ReachV items.toFinset xt yt (items.get i) y →
      ∃ j : Fin items.length, ReachIdx items xt yt i j ∧ items.get j = y := by
  intro y h
  induction h with
  | refl => exact ⟨i, Relation.ReflTransGen.refl, rfl⟩
  | @tail b c _ hbc ih =>
    obtain ⟨j, hj, hgj⟩ := ih
    obtain ⟨hbS, hcS, hcon⟩ := hbc
    obtain ⟨p, hp⟩ := List.mem_iff_get.mp (List.mem_toFinset.mp hcS)
    by_cases hjc : items.get j = c
    · exact ⟨j, hj, hjc⟩
    · refine ⟨p, hj.tail ?_, hp⟩
      have hne : j ≠ p := by
        intro hpe
        exact hjc (hpe.symm ▸ hp)
      unfold edgeB
      rw [Bool.and_eq_true]
      refine ⟨decide_eq_true hne, ?_⟩
      rw [hgj, hp]
      exact hcon

theorem comp_valueSet_eq (items : List Item) (xt yt : Int) {c : List (Fin items.length)}
    (hc : c ∈ components items xt yt) {i : Fin items.length} (hi : i ∈ c) :
    ((c.insertionSort (memberLE items)).map items.get).toFinset =
      @Finset.filter Item (fun y => ReachV items.toFinset xt yt (items.get i) y)
        (Classical.decPred _) items.toFinset := by
  ext y
  simp only [List.mem_toFinset, List.mem_map, Finset.mem_filter, List.mem_toFinset]
  constructor
  · rintro ⟨j, hj, rfl⟩
    have hjc : j ∈ c := (List.perm_insertionSort (memberLE items) c).mem_iff.mp hj
    exact ⟨items.get_mem j.1 j.2,
      reachIdx_to_reachV items xt yt (components_same_reach items xt yt c hc i hi j hjc)⟩
  · rintro ⟨hyS, hr⟩
    obtain ⟨j, hj, rfl⟩ := reachV_lift items xt yt i hr
    exact ⟨j, (List.perm_insertionSort (memberLE items) c).mem_iff.mpr
      (mem_comp_of_reach items xt yt hc hi hj), rfl⟩

/-- C10: the partition computed by the grouper — the set of groups, each
group viewed as the set of its member detections — is invariant under any
permutation of the input detection list. -/
theorem claimC10 (l1 l2 : List Item) (xt yt : Int) (h : l1.Perm l2) :
    ((sortBoxes l1 xt yt).map List.toFinset).toFinset =
      ((sortBoxes l2 xt yt).map List.toFinset).toFinset := by
  have key : ∀ l : List Item,
      ((sortBoxes l xt yt).map List.toFinset).toFinset =
        (l.toFinset).image
          (fun x => @Finset.filter Item (fun y => ReachV l.toFinset xt yt x y)
            (Classical.decPred _) l.toFinset) := by
    intro l
    ext G
    simp only [List.mem_toFinset, List.mem_map, Finset.mem_image, List.mem_toFinset]
    constructor
    · rintro ⟨g, hg, rfl⟩
      obtain ⟨c, hc, hfc⟩ := (mem_sortBoxes_iff l xt yt g).mp hg
      obtain ⟨r, hr, _⟩ := groupLoop_root (nbrs l xt yt) _ _ c hc
      refine ⟨l.get r, l.get_mem r.1 r.2, ?_⟩
      rw [← hfc]
      exact (comp_valueSet_eq l xt yt hc hr).symm
    · rintro ⟨x, hx, rfl⟩
      obtain ⟨i, rfl⟩ := List.mem_iff_get.mp hx
      obtain ⟨c, hc, hic⟩ := components_cover l xt yt i
      exact ⟨(c.insertionSort (memberLE l)).map l.get,
        (mem_sortBoxes_iff l xt yt _).mpr ⟨c, hc, rfl⟩,
        comp_valueSet_eq l xt yt hc hic⟩
  rw [key l1, key l2, List.toFinset_eq_of_perm l1 l2 h]

theorem claimC10_witness :
    ((sortBoxes [detA, detB] 20 20).map List.toFinset).toFinset =
      ((sortBoxes [detB, detA] 20 20).map List.toFinset).toFinset :=
  claimC10 [detA, detB] [detB, detA] 20 20 (List.Perm.swap detB detA [])
